import Mathlib

/-!
Verification of the evaluation module `lab1_evalFunctions.py`
(`calcAccuracy`, `calcConfusionMatrix`, `calcAccuracyCM`).

Labels are embedded as integers.  Matrices are lists of rows of natural
numbers (the source initialises a numpy array of zeros and only ever adds 1
to entries, so all entries are counts).  Exact rationals stand in for
floating-point values; `none : Option ℚ` stands for the non-finite value
(NaN) numpy produces when a zero denominator is divided.  Python exceptions
are modelled with `Except String`.
-/

namespace Lab1Eval

/-- Model of `np.unique` on a list of integer labels: the sorted list of the
distinct values occurring in the input. -/
def npUnique (l : List Int) : List Int :=
  List.insertionSort (· ≤ ·) l.dedup

/-- The elementwise comparison `LPred == LTrue` followed by `np.sum` in
`calcAccuracy`: the number of aligned positions where the two lists agree. -/
def countMatches (LPred LTrue : List Int) : Nat :=
  (LPred.zip LTrue).countP fun pt => decide (pt.1 = pt.2)

/-- Float division as numpy performs it: a zero denominator yields a
non-finite value (NaN here, since the numerators that occur are bounded by
the denominators), modelled as `none`; otherwise the exact quotient. -/
def floatDiv (x y : ℚ) : Option ℚ :=
  if y = 0 then none else some (x / y)

/-- Embedding of `calcAccuracy(LPred, LTrue)`: raises `ValueError` when the
lengths differ, otherwise returns `trueCount / N`. -/
def calcAccuracy (LPred LTrue : List Int) : Except String (Option ℚ) :=
  if LPred.length ≠ LTrue.length then
    Except.error "LPred and LTrue must be the same length."
  else
    Except.ok (floatDiv (countMatches LPred LTrue) LPred.length)

/-- numpy integer indexing into an axis of size `k`: indices in `[0, k)` are
taken as is, indices in `[-k, 0)` wrap around by adding `k`, and anything
else raises `IndexError` (modelled as `none`). -/
def npIndex (k : Nat) (i : Int) : Option Nat :=
  if 0 ≤ i ∧ i < (k : Int) then some i.toNat
  else if -(k : Int) ≤ i ∧ i < 0 then some (i + k).toNat
  else none

/-- Replace the `n`-th element of a list by its image under `f` (no-op when
`n` is out of range). -/
def modifyAt {α : Type} (f : α → α) : Nat → List α → List α
  | _, [] => []
  | 0, a :: as => f a :: as
  | n + 1, a :: as => a :: modifyAt f n as

/-- `cM[r, c] = cM[r, c] + 1` on a list-of-rows matrix. -/
def bumpCell (m : List (List Nat)) (r c : Nat) : List (List Nat) :=
  modifyAt (modifyAt (· + 1) c) r m

/-- One iteration of the loop `for true, pred in zip(LTrue, LPred)` of
`calcConfusionMatrix`: `tp.1` is the true label, `tp.2` the predicted one,
and `cM[pred, true] += 1` with numpy indexing semantics. -/
def cmStep (k : Nat) (m : List (List Nat)) (tp : Int × Int) :
    Except String (List (List Nat)) :=
  match npIndex k tp.2, npIndex k tp.1 with
  | some r, some c => Except.ok (bumpCell m r c)
  | _, _ => Except.error "IndexError"

/-- Embedding of `calcConfusionMatrix(LPred, LTrue)`: `classNum` distinct
labels over the concatenation, a `classNum × classNum` zero matrix, then the
increment loop over `zip(LTrue, LPred)`. -/
def calcConfusionMatrix (LPred LTrue : List Int) :
    Except String (List (List Nat)) :=
  let labels := npUnique (LPred ++ LTrue)
  let classNum := labels.length
  (LTrue.zip LPred).foldlM (cmStep classNum)
    (List.replicate classNum (List.replicate classNum 0))

/-- Entry `(r, c)` of a list-of-rows matrix (0 outside the stored area). -/
def getEntry (m : List (List Nat)) (r c : Nat) : Nat :=
  (m.getD r []).getD c 0

/-- `np.trace`: the sum of the diagonal entries. -/
def matTrace (m : List (List Nat)) : Nat :=
  ∑ r ∈ Finset.range m.length, getEntry m r r

/-- `np.sum` over the whole matrix. -/
def matSum (m : List (List Nat)) : Nat :=
  (m.map List.sum).sum

/-- Embedding of `calcAccuracyCM(cM)`: `np.trace(cM) / np.sum(cM)` with no
check on the denominator. -/
def calcAccuracyCM (cM : List (List Nat)) : Option ℚ :=
  floatDiv (matTrace cM) (matSum cM)

/-- The number `K` of distinct labels over both sequences. -/
def labelsK (LPred LTrue : List Int) : Nat :=
  (npUnique (LPred ++ LTrue)).length

/-- All labels of both sequences lie in `{0, …, K-1}`, `K` the number of
distinct labels: the canonical ordering is then `0, …, K-1` and numpy
indexing by a raw label agrees with indexing by its sorted position. -/
def labelsInRange (LPred LTrue : List Int) : Prop :=
  ∀ x ∈ LPred ++ LTrue, 0 ≤ x ∧ x < (labelsK LPred LTrue : Int)

instance (LPred LTrue : List Int) : Decidable (labelsInRange LPred LTrue) :=
  List.decidableBAll _ _

/-! ### Basic lemmas about list surgery -/

theorem length_modifyAt {α : Type} (f : α → α) (n : Nat) (l : List α) :
    (modifyAt f n l).length = l.length := by
  induction l generalizing n with
  | nil => cases n <;> rfl
  | cons a as ih =>
    cases n with
    | zero => rfl
    | succ n => simp [modifyAt, ih]

theorem getD_modifyAt_eq {α : Type} (f : α → α) (n : Nat) (l : List α) (d : α)
    (h : n < l.length) : (modifyAt f n l).getD n d = f (l.getD n d) := by
  induction l generalizing n with
  | nil => simp at h
  | cons a as ih =>
    cases n with
    | zero => rfl
    | succ n => simpa [modifyAt] using ih n (by simpa using h)

theorem getD_modifyAt_ne {α : Type} (f : α → α) (n m : Nat) (l : List α) (d : α)
    (h : n ≠ m) : (modifyAt f n l).getD m d = l.getD m d := by
  induction l generalizing n m with
  | nil => cases n <;> rfl
  | cons a as ih =>
    cases n with
    | zero =>
      cases m with
      | zero => exact absurd rfl h
      | succ m => rfl
    | succ n =>
      cases m with
      | zero => rfl
      | succ m => simpa [modifyAt] using ih n m (by omega)

theorem mem_modifyAt {α : Type} (f : α → α) (n : Nat) (l : List α) :
    ∀ x ∈ modifyAt f n l, x ∈ l ∨ ∃ y, y ∈ l ∧ x = f y := by
  induction l generalizing n with
  | nil => intro x hx; simp [modifyAt] at hx
  | cons a as ih =>
    cases n with
    | zero =>
      intro x hx
      rcases List.mem_cons.mp hx with h | h
      · exact Or.inr ⟨a, by simp, h⟩
      · exact Or.inl (List.mem_cons_of_mem _ h)
    | succ n =>
      intro x hx
      rcases List.mem_cons.mp hx with h | h
      · exact Or.inl (by simp [h])
      · rcases ih n x h with h' | ⟨y, hy, hxy⟩
        · exact Or.inl (List.mem_cons_of_mem _ h')
        · exact Or.inr ⟨y, List.mem_cons_of_mem _ hy, hxy⟩

theorem sum_modifyAt_add_one (c : Nat) (l : List Nat) (h : c < l.length) :
    (modifyAt (· + 1) c l).sum = l.sum + 1 := by
  induction l generalizing c with
  | nil => simp at h
  | cons a as ih =>
    cases c with
    | zero => simp [modifyAt]; omega
    | succ c =>
      have := ih c (by simpa using h)
      simp [modifyAt, this]; omega

/-- The matrix is a `k × k` grid of rows. -/
def dims (m : List (List Nat)) (k : Nat) : Prop :=
  m.length = k ∧ ∀ row ∈ m, row.length = k

theorem dims_replicate (k : Nat) :
    dims (List.replicate k (List.replicate k 0)) k := by
  refine ⟨by simp, fun row hrow => ?_⟩
  rw [List.eq_of_mem_replicate hrow]; simp

theorem getD_replicate' {α : Type} (k r : Nat) (x d : α) :
    (List.replicate k x).getD r d = if r < k then x else d := by
  induction k generalizing r with
  | zero => simp
  | succ k ih =>
    cases r with
    | zero => simp
    | succ r => simpa [List.replicate_succ] using ih r

theorem getEntry_replicate (k r c : Nat) :
    getEntry (List.replicate k (List.replicate k 0)) r c = 0 := by
  unfold getEntry
  rw [getD_replicate']
  by_cases h : r < k
  · rw [if_pos h, getD_replicate']
    by_cases h' : c < k <;> simp [h']
  · simp [if_neg h]

theorem matSum_replicate (k : Nat) :
    matSum (List.replicate k (List.replicate k 0)) = 0 := by
  unfold matSum
  simp

theorem matTrace_replicate (k : Nat) :
    matTrace (List.replicate k (List.replicate k 0)) = 0 := by
  unfold matTrace
  exact Finset.sum_eq_zero fun r _ => getEntry_replicate k r r

theorem row_length {m : List (List Nat)} {k : Nat} (h : dims m k) {r : Nat}
    (hr : r < m.length) : (m.getD r []).length = k := by
  have hmem : m.getD r [] ∈ m := by
    rw [List.getD_eq_getElem m [] hr]
    exact List.getElem_mem hr
  exact h.2 _ hmem

/-! ### The effect of one increment on a `k × k` matrix -/

theorem getEntry_bumpCell (m : List (List Nat)) (r₀ c₀ r c : Nat)
    (hr₀ : r₀ < m.length) (hc₀ : c₀ < (m.getD r₀ []).length) :
    getEntry (bumpCell m r₀ c₀) r c =
      getEntry m r c + if r = r₀ ∧ c = c₀ then 1 else 0 := by
  unfold getEntry bumpCell
  by_cases hr : r = r₀
  · subst hr
    rw [getD_modifyAt_eq _ _ _ _ hr₀]
    by_cases hc : c = c₀
    · subst hc
      rw [getD_modifyAt_eq _ _ _ _ hc₀]
      simp
    · rw [getD_modifyAt_ne _ _ _ _ _ (fun h => hc h.symm)]
      simp [hc]
  · rw [getD_modifyAt_ne _ _ _ _ _ (fun h => hr h.symm)]
    simp [hr]

theorem dims_bumpCell {m : List (List Nat)} {k : Nat} (h : dims m k)
    (r₀ c₀ : Nat) : dims (bumpCell m r₀ c₀) k := by
  constructor
  · rw [bumpCell, length_modifyAt]; exact h.1
  · intro row hrow
    rcases mem_modifyAt _ _ _ row hrow with hmem | ⟨y, hy, hrow'⟩
    · exact h.2 _ hmem
    · rw [hrow', length_modifyAt]; exact h.2 _ hy

theorem matSum_bumpCell (m : List (List Nat)) (r₀ c₀ : Nat)
    (hr₀ : r₀ < m.length) (hc₀ : ∀ row ∈ m, c₀ < row.length) :
    matSum (bumpCell m r₀ c₀) = matSum m + 1 := by
  unfold bumpCell
  induction m generalizing r₀ with
  | nil => simp at hr₀
  | cons row rest ih =>
    cases r₀ with
    | zero =>
      have h1 := sum_modifyAt_add_one c₀ row (hc₀ row (by simp))
      simp [modifyAt, matSum, h1]
      omega
    | succ r₀ =>
      have h1 := ih r₀ (by simpa using hr₀)
        (fun row' hrow' => hc₀ row' (List.mem_cons_of_mem _ hrow'))
      simp [modifyAt, matSum] at h1 ⊢
      omega

theorem matTrace_bumpCell (m : List (List Nat)) (r₀ c₀ : Nat)
    (hr₀ : r₀ < m.length) (hc₀ : c₀ < (m.getD r₀ []).length) :
    matTrace (bumpCell m r₀ c₀) = matTrace m + if r₀ = c₀ then 1 else 0 := by
  unfold matTrace
  have hlen : (bumpCell m r₀ c₀).length = m.length := by
    rw [bumpCell, length_modifyAt]
  rw [hlen]
  have hterm : ∀ r ∈ Finset.range m.length,
      getEntry (bumpCell m r₀ c₀) r r =
        getEntry m r r + if r = r₀ ∧ r = c₀ then 1 else 0 :=
    fun r _ => getEntry_bumpCell m r₀ c₀ r r hr₀ hc₀
  rw [Finset.sum_congr rfl hterm, Finset.sum_add_distrib]
  congr 1
  by_cases h : r₀ = c₀
  · subst h
    simp only [and_self]
    rw [Finset.sum_ite_eq' (Finset.range m.length) r₀ (fun _ => 1)]
    simp [Finset.mem_range, hr₀]
  · rw [if_neg h]
    exact Finset.sum_eq_zero fun r _ => by
      rw [if_neg]; rintro ⟨rfl, rfl⟩; exact h rfl

/-! ### numpy index lemmas -/

theorem npIndex_of_range (k : Nat) (i : Int) (h0 : 0 ≤ i) (hk : i < (k : Int)) :
    npIndex k i = some i.toNat := by
  unfold npIndex
  rw [if_pos ⟨h0, hk⟩]

theorem npIndex_some_lt {k : Nat} {i : Int} {n : Nat}
    (h : npIndex k i = some n) : n < k := by
  unfold npIndex at h
  by_cases h1 : 0 ≤ i ∧ i < (k : Int)
  · rw [if_pos h1] at h
    have := Option.some.inj h
    omega
  · rw [if_neg h1] at h
    by_cases h2 : -(k : Int) ≤ i ∧ i < 0
    · rw [if_pos h2] at h
      have := Option.some.inj h
      omega
    · rw [if_neg h2] at h
      exact absurd h (by simp)

/-! ### The loop of calcConfusionMatrix -/

/-- Both components of a `(true, predicted)` pair lie in `[0, k)`. -/
def inRange (k : Nat) (tp : Int × Int) : Prop :=
  0 ≤ tp.1 ∧ tp.1 < (k : Int) ∧ 0 ≤ tp.2 ∧ tp.2 < (k : Int)

theorem cmStep_ok {k : Nat} {m m₁ : List (List Nat)} {tp : Int × Int}
    (h : cmStep k m tp = Except.ok m₁) :
    ∃ r c, npIndex k tp.2 = some r ∧ npIndex k tp.1 = some c ∧
      m₁ = bumpCell m r c := by
  unfold cmStep at h
  rcases hr : npIndex k tp.2 with _ | r <;> rw [hr] at h
  · injection h
  · rcases hc : npIndex k tp.1 with _ | c <;> rw [hc] at h
    · injection h
    · exact ⟨r, c, rfl, rfl, (Except.ok.inj h).symm⟩

theorem foldCM_char (k : Nat) (pairs : List (Int × Int)) :
    ∀ m : List (List Nat), dims m k → (∀ tp ∈ pairs, inRange k tp) →
    ∃ m', pairs.foldlM (cmStep k) m = Except.ok m' ∧ dims m' k ∧
      (∀ r c, getEntry m' r c = getEntry m r c +
        pairs.countP
          (fun tp => decide (tp.2 = (r : Int)) && decide (tp.1 = (c : Int)))) ∧
      matTrace m' = matTrace m +
        pairs.countP (fun tp => decide (tp.1 = tp.2)) := by
  induction pairs with
  | nil =>
    intro m hm _
    exact ⟨m, rfl, hm, fun r c => by simp, by simp⟩
  | cons tp rest ih =>
    intro m hm hp
    obtain ⟨h1, h2, h3, h4⟩ := hp tp (by simp)
    have hstep : cmStep k m tp =
        Except.ok (bumpCell m tp.2.toNat tp.1.toNat) := by
      unfold cmStep
      rw [npIndex_of_range k tp.2 h3 h4, npIndex_of_range k tp.1 h1 h2]
    have hr₀ : tp.2.toNat < m.length := by rw [hm.1]; omega
    have hc₀ : tp.1.toNat < (m.getD tp.2.toNat []).length := by
      rw [row_length hm hr₀]; omega
    obtain ⟨m', hok, hdims, hent, htr⟩ :=
      ih (bumpCell m tp.2.toNat tp.1.toNat) (dims_bumpCell hm _ _)
        (fun tp' htp' => hp tp' (List.mem_cons_of_mem _ htp'))
    refine ⟨m', ?_, hdims, ?_, ?_⟩
    · rw [List.foldlM_cons, hstep]
      exact hok
    · intro r c
      rw [hent r c, getEntry_bumpCell m _ _ r c hr₀ hc₀, List.countP_cons]
      have hiff : (r = tp.2.toNat ∧ c = tp.1.toNat) ↔
          (tp.2 = (r : Int) ∧ tp.1 = (c : Int)) := by omega
      have heq : (if r = tp.2.toNat ∧ c = tp.1.toNat then 1 else 0) =
          (if (decide (tp.2 = (r : Int)) && decide (tp.1 = (c : Int))) = true
            then 1 else 0) := by
        simp only [Bool.and_eq_true, decide_eq_true_eq]
        exact if_congr hiff rfl rfl
      rw [heq]
      omega
    · rw [htr, matTrace_bumpCell m _ _ hr₀ hc₀, List.countP_cons]
      have hiff : (tp.2.toNat = tp.1.toNat) ↔ (tp.1 = tp.2) := by omega
      have heq : (if tp.2.toNat = tp.1.toNat then 1 else 0) =
          (if decide (tp.1 = tp.2) = true then 1 else 0) := by
        simp only [decide_eq_true_eq]
        exact if_congr hiff rfl rfl
      rw [heq]
      omega

theorem foldCM_sum (k : Nat) (pairs : List (Int × Int)) :
    ∀ m m' : List (List Nat), dims m k →
      pairs.foldlM (cmStep k) m = Except.ok m' →
      dims m' k ∧ matSum m' = matSum m + pairs.length := by
  induction pairs with
  | nil =>
    intro m m' hm h
    rw [List.foldlM_nil] at h
    cases Except.ok.inj h
    exact ⟨hm, by simp⟩
  | cons tp rest ih =>
    intro m m' hm h
    rw [List.foldlM_cons] at h
    rcases hstep : cmStep k m tp with e | m₁
    · rw [hstep] at h; injection h
    · obtain ⟨r, c, hr, hc, hm₁⟩ := cmStep_ok hstep
      rw [hstep] at h
      have h' : rest.foldlM (cmStep k) m₁ = Except.ok m' := h
      subst hm₁
      have hrk : r < k := npIndex_some_lt hr
      have hck : c < k := npIndex_some_lt hc
      obtain ⟨hdims, hsum⟩ := ih _ _ (dims_bumpCell hm r c) h'
      refine ⟨hdims, ?_⟩
      rw [hsum, matSum_bumpCell m r c (by rw [hm.1]; exact hrk)
        (fun row hrow => by rw [hm.2 row hrow]; exact hck)]
      simp [List.length_cons]
      omega

theorem foldCM_diag (k : Nat) (pairs : List (Int × Int)) :
    ∀ m m' : List (List Nat), dims m k → (∀ tp ∈ pairs, tp.1 = tp.2) →
      pairs.foldlM (cmStep k) m = Except.ok m' →
      ∀ r c, r ≠ c → getEntry m' r c = getEntry m r c := by
  induction pairs with
  | nil =>
    intro m m' _ _ h r c _
    rw [List.foldlM_nil] at h
    cases Except.ok.inj h
    rfl
  | cons tp rest ih =>
    intro m m' hm hdg h r c hrc
    rw [List.foldlM_cons] at h
    rcases hstep : cmStep k m tp with e | m₁
    · rw [hstep] at h; injection h
    · obtain ⟨r₀, c₀, hr₀, hc₀, hm₁⟩ := cmStep_ok hstep
      rw [hstep] at h
      have h' : rest.foldlM (cmStep k) m₁ = Except.ok m' := h
      have hd : tp.1 = tp.2 := hdg tp (by simp)
      have hcr : c₀ = r₀ := by
        rw [hd, hr₀] at hc₀
        exact (Option.some.inj hc₀).symm
      subst hm₁
      have hrk : r₀ < k := npIndex_some_lt hr₀
      have hrlen : r₀ < m.length := by rw [hm.1]; exact hrk
      have ihres := ih _ _ (dims_bumpCell hm _ _)
        (fun tp' ht => hdg tp' (List.mem_cons_of_mem _ ht)) h' r c hrc
      rw [ihres, getEntry_bumpCell m r₀ c₀ r c hrlen
        (by rw [row_length hm hrlen, hcr]; exact hrk)]
      rw [if_neg (by rintro ⟨rfl, rfl⟩; exact hrc hcr.symm)]
      omega

/-! ### The canonical label ordering produced by npUnique -/

theorem npUnique_sorted_le (l : List Int) :
    List.Sorted (· ≤ ·) (npUnique l) :=
  List.sorted_insertionSort _ _

theorem npUnique_nodup (l : List Int) : (npUnique l).Nodup :=
  (List.perm_insertionSort _ _).nodup_iff.mpr (List.nodup_dedup l)

theorem npUnique_sorted_lt (l : List Int) :
    List.Sorted (· < ·) (npUnique l) :=
  ((npUnique_sorted_le l).and (npUnique_nodup l)).imp
    fun h => lt_of_le_of_ne h.1 h.2

theorem mem_npUnique (l : List Int) (x : Int) : x ∈ npUnique l ↔ x ∈ l := by
  unfold npUnique
  rw [(List.perm_insertionSort (· ≤ ·) l.dedup).mem_iff, List.mem_dedup]

theorem sorted_head_le (b : Int) :
    ∀ L : List Int, List.Sorted (· < ·) L → (∀ x ∈ L, x < b) →
      ∀ a ∈ L.head?, a ≤ b - L.length := by
  intro L
  induction L with
  | nil => intro _ _ a ha; simp at ha
  | cons x L ih =>
    intro hs hb a ha
    rw [List.head?_cons, Option.mem_some_iff] at ha
    subst ha
    rcases L with _ | ⟨y, L'⟩
    · have := hb x (by simp)
      simp
      omega
    · have hcons := List.sorted_cons.mp hs
      have h1 := ih hcons.2 (fun z hz => hb z (List.mem_cons_of_mem _ hz)) y
        (by simp)
      have h2 := hcons.1 y (by simp)
      simp at h1 ⊢
      omega

theorem sorted_eq_range :
    ∀ (L : List Int) (a : Int), List.Sorted (· < ·) L →
      (∀ x ∈ L, a ≤ x ∧ x < a + L.length) →
      L = (List.range L.length).map fun i : Nat => a + (i : Int) := by
  intro L
  induction L with
  | nil => simp
  | cons x L ih =>
    intro a hs hmem
    have hcons := List.sorted_cons.mp hs
    have hx1 : a ≤ x := (hmem x (by simp)).1
    have hx2 : x ≤ a := by
      have h := sorted_head_le (a + (x :: L).length) (x :: L) hs
        (fun z hz => (hmem z hz).2) x (by simp)
      simp at h
      omega
    have hxa : x = a := le_antisymm hx2 hx1
    subst hxa
    have hmem' : ∀ z ∈ L, (x + 1) ≤ z ∧ z < (x + 1) + L.length := by
      intro z hz
      refine ⟨by have := hcons.1 z hz; omega, ?_⟩
      have := (hmem z (List.mem_cons_of_mem _ hz)).2
      simp at this ⊢
      omega
    conv_lhs => rw [ih (x + 1) hcons.2 hmem']
    rw [List.length_cons, List.range_succ_eq_map]
    simp only [List.map_cons, List.map_map]
    congr 1
    · simp
    · refine List.map_congr_left fun i _ => ?_
      simp only [Function.comp_apply]
      push_cast
      ring

theorem npUnique_eq_range (l : List Int)
    (h : ∀ x ∈ l, 0 ≤ x ∧ x < ((npUnique l).length : Int)) :
    npUnique l = (List.range (npUnique l).length).map fun i : Nat => (i : Int) := by
  have hmem : ∀ x ∈ npUnique l,
      (0 : Int) ≤ x ∧ x < 0 + (npUnique l).length := by
    intro x hx
    have := h x ((mem_npUnique l x).mp hx)
    omega
  have := sorted_eq_range (npUnique l) 0 (npUnique_sorted_lt l) hmem
  simpa using this

/-! ### Counting lemmas about zipped label lists -/

theorem countP_zip_swap {α β : Type} (p : α × β → Bool) :
    ∀ (A : List α) (B : List β),
      (A.zip B).countP p = (B.zip A).countP fun x => p (x.2, x.1) := by
  intro A
  induction A with
  | nil => intro B; cases B <;> rfl
  | cons a A ih =>
    intro B
    cases B with
    | nil => rfl
    | cons b B => simp [List.zip_cons_cons, List.countP_cons, ih B]

theorem zip_self_eq_map {α : Type} (l : List α) :
    l.zip l = l.map fun x => (x, x) := by
  induction l with
  | nil => rfl
  | cons a l ih => simp [List.zip_cons_cons, ih]

theorem countMatches_self (l : List Int) : countMatches l l = l.length := by
  unfold countMatches
  rw [zip_self_eq_map, List.countP_map]
  simp [Function.comp]

theorem countMatches_comm_zip (LPred LTrue : List Int) :
    (LTrue.zip LPred).countP (fun tp => decide (tp.1 = tp.2)) =
      countMatches LPred LTrue := by
  unfold countMatches
  rw [countP_zip_swap]
  exact List.countP_congr fun pt _ => by simp [eq_comm]

/-! ### Glue between calcConfusionMatrix and the fold -/

theorem calcConfusionMatrix_eq_fold (LPred LTrue : List Int) :
    calcConfusionMatrix LPred LTrue =
      (LTrue.zip LPred).foldlM (cmStep (labelsK LPred LTrue))
        (List.replicate (labelsK LPred LTrue)
          (List.replicate (labelsK LPred LTrue) 0)) := rfl

theorem inRange_of_labels (LPred LTrue : List Int)
    (h : labelsInRange LPred LTrue) :
    ∀ tp ∈ LTrue.zip LPred, inRange (labelsK LPred LTrue) tp := by
  intro tp htp
  obtain ⟨t, p⟩ := tp
  obtain ⟨h1, h2⟩ := List.of_mem_zip htp
  have ht := h t (List.mem_append_right _ h1)
  have hp := h p (List.mem_append_left _ h2)
  exact ⟨ht.1, ht.2, hp.1, hp.2⟩

theorem confusion_success (LPred LTrue : List Int)
    (h : labelsInRange LPred LTrue) :
    ∃ m, calcConfusionMatrix LPred LTrue = Except.ok m ∧
      dims m (labelsK LPred LTrue) ∧
      (∀ r c, getEntry m r c = (LTrue.zip LPred).countP
        (fun tp => decide (tp.2 = (r : Int)) && decide (tp.1 = (c : Int)))) ∧
      matTrace m = (LTrue.zip LPred).countP (fun tp => decide (tp.1 = tp.2)) ∧
      matSum m = (LTrue.zip LPred).length := by
  obtain ⟨m, hok, hdims, hent, htr⟩ :=
    foldCM_char (labelsK LPred LTrue) (LTrue.zip LPred) _ (dims_replicate _)
      (inRange_of_labels LPred LTrue h)
  obtain ⟨_, hsum⟩ := foldCM_sum _ _ _ _ (dims_replicate _) hok
  refine ⟨m, by rw [calcConfusionMatrix_eq_fold]; exact hok, hdims, ?_, ?_, ?_⟩
  · intro r c
    have := hent r c
    rw [getEntry_replicate] at this
    simpa using this
  · rw [matTrace_replicate] at htr
    simpa using htr
  · rw [matSum_replicate] at hsum
    simpa using hsum

/-! ### The claims -/

/-- C1 (amended): for equal-length, nonempty label sequences whose labels
are exactly `{0, …, K-1}` (`K` the number of distinct labels, so raw-label
indexing coincides with indexing by sorted position), the accuracy computed
directly from the labels equals the accuracy computed from the confusion
matrix built from those labels. -/
theorem accuracy_consistent_with_matrix (LPred LTrue : List Int)
    (hlen : LPred.length = LTrue.length) (_hN : 1 ≤ LPred.length)
    (hr : labelsInRange LPred LTrue) :
    ∃ m, calcConfusionMatrix LPred LTrue = Except.ok m ∧
      calcAccuracy LPred LTrue = Except.ok (calcAccuracyCM m) := by
  obtain ⟨m, hok, _, _, htr, hsum⟩ := confusion_success LPred LTrue hr
  refine ⟨m, hok, ?_⟩
  unfold calcAccuracy calcAccuracyCM
  rw [if_neg (by omega)]
  have hmin : min LTrue.length LPred.length = LPred.length := by omega
  rw [htr, countMatches_comm_zip, hsum, List.length_zip, hmin]

/-- C1 witness: the two accuracy computations agree on a concrete pair. -/
theorem accuracy_consistent_with_matrix_witness :
    calcAccuracy [0, 1] [0, 1] = Except.ok (calcAccuracyCM [[1, 0], [0, 1]]) := by
  obtain ⟨m, hok, hacc⟩ :=
    accuracy_consistent_with_matrix [0, 1] [0, 1] rfl (by decide) (by decide)
  have hm : m = [[1, 0], [0, 1]] :=
    Except.ok.inj (hok.symm.trans (show calcConfusionMatrix [0, 1] [0, 1] =
      Except.ok [[1, 0], [0, 1]] from rfl))
  rw [← hm]
  exact hacc

/-- C1 counterexample: with labels `{-1, 1}` numpy wrap-around indexing bins
the single wrong prediction onto the diagonal, so the direct accuracy is 0
while the matrix-derived accuracy is 1. -/
theorem accuracy_consistent_with_matrix_cex :
    calcAccuracy [-1] [1] = Except.ok (some 0) ∧
    calcConfusionMatrix [-1] [1] = Except.ok [[0, 0], [0, 1]] ∧
    calcAccuracyCM [[0, 0], [0, 1]] = some 1 := by
  refine ⟨?_, rfl, ?_⟩
  · have h1 : calcAccuracy [-1] [1] = Except.ok (floatDiv 0 1) := rfl
    rw [h1]
    norm_num [floatDiv]
  · have h2 : calcAccuracyCM [[0, 0], [0, 1]] = floatDiv 1 1 := rfl
    rw [h2]
    norm_num [floatDiv]

/-- C2 (amended): under the same `{0, …, K-1}` label restriction,
`calcConfusionMatrix` returns a `K × K` matrix, the canonical sorted label
ordering is `0, …, K-1` (so the position of a label is the label itself),
and entry `(r, c)` counts the samples predicted `r` with true label `c`. -/
theorem confusionMatrix_entries (LPred LTrue : List Int)
    (_hlen : LPred.length = LTrue.length) (hr : labelsInRange LPred LTrue) :
    ∃ m, calcConfusionMatrix LPred LTrue = Except.ok m ∧
      m.length = labelsK LPred LTrue ∧
      (∀ row ∈ m, row.length = labelsK LPred LTrue) ∧
      npUnique (LPred ++ LTrue) =
        (List.range (labelsK LPred LTrue)).map (fun i : Nat => (i : Int)) ∧
      ∀ r c, getEntry m r c = (LPred.zip LTrue).countP
        (fun pt => decide (pt.1 = (r : Int)) && decide (pt.2 = (c : Int))) := by
  obtain ⟨m, hok, hdims, hent, _, _⟩ := confusion_success LPred LTrue hr
  refine ⟨m, hok, hdims.1, hdims.2, npUnique_eq_range _ hr, ?_⟩
  intro r c
  rw [hent r c, countP_zip_swap
    (fun tp => decide (tp.2 = (r : Int)) && decide (tp.1 = (c : Int)))
    LTrue LPred]

/-- C2 witness: dimensions and one entry checked on a concrete pair. -/
theorem confusionMatrix_entries_witness :
    ([[2, 0], [1, 2]] : List (List Nat)).length =
      labelsK [0, 1, 1, 0, 1] [0, 1, 0, 0, 1] ∧
    getEntry [[2, 0], [1, 2]] 1 0 =
      (([0, 1, 1, 0, 1] : List Int).zip [0, 1, 0, 0, 1]).countP
        (fun pt => decide (pt.1 = ((1 : Nat) : Int)) &&
          decide (pt.2 = ((0 : Nat) : Int))) := by
  obtain ⟨m, hok, hlen, _, _, hent⟩ :=
    confusionMatrix_entries [0, 1, 1, 0, 1] [0, 1, 0, 0, 1] rfl (by decide)
  have hm : m = [[2, 0], [1, 2]] :=
    Except.ok.inj (hok.symm.trans
      (show calcConfusionMatrix [0, 1, 1, 0, 1] [0, 1, 0, 0, 1] =
        Except.ok [[2, 0], [1, 2]] from rfl))
  rw [hm] at hlen hent
  exact ⟨hlen, hent 1 0⟩

/-- C2 counterexample: with the single label `2` the code allocates a `1 × 1`
matrix but indexes it at the raw label value, raising `IndexError` instead of
returning the matrix described by the claim. -/
theorem confusionMatrix_entries_cex :
    calcConfusionMatrix [2] [2] = Except.error "IndexError" :=
  rfl

/-- C3 (amended): whenever `calcConfusionMatrix` on equal-length sequences
returns a matrix (rather than raising `IndexError`), the entries of that
matrix sum to the common length `N`. -/
theorem confusionMatrix_total (LPred LTrue : List Int) (m : List (List Nat))
    (hlen : LPred.length = LTrue.length)
    (hok : calcConfusionMatrix LPred LTrue = Except.ok m) :
    matSum m = LPred.length := by
  rw [calcConfusionMatrix_eq_fold] at hok
  obtain ⟨_, hsum⟩ := foldCM_sum _ _ _ _ (dims_replicate _) hok
  rw [matSum_replicate] at hsum
  rw [hsum, List.length_zip]
  omega

/-- C3 witness: the concrete confusion matrix of the spec scenario sums to
the length of the label lists. -/
theorem confusionMatrix_total_witness :
    matSum [[2, 0], [1, 2]] = ([0, 1, 1, 0, 1] : List Int).length :=
  confusionMatrix_total [0, 1, 1, 0, 1] [0, 1, 0, 0, 1] [[2, 0], [1, 2]] rfl rfl

/-- C3 counterexample: on the equal-length pair `P = [1]`, `T = [2]` no
matrix is returned at all — the call raises `IndexError` — so the sum of the
entries of `calcConfusionMatrix(P, T)` does not equal `N` there. -/
theorem confusionMatrix_total_cex :
    calcConfusionMatrix [1] [2] = Except.error "IndexError" :=
  rfl

/-- C4: `calcAccuracy` raises an error exactly when the two sequences have
different lengths; with equal lengths it always returns a value. -/
theorem calcAccuracy_error_iff (LPred LTrue : List Int) :
    (∃ e, calcAccuracy LPred LTrue = Except.error e) ↔
      LPred.length ≠ LTrue.length := by
  unfold calcAccuracy
  by_cases h : LPred.length ≠ LTrue.length
  · simp [h]
  · simp [h]

/-- C5: for equal-length sequences with `N ≥ 1`, `calcAccuracy` returns the
number of agreeing positions divided by `N`, a value in `[0, 1]`. -/
theorem calcAccuracy_formula_bounds (LPred LTrue : List Int)
    (hlen : LPred.length = LTrue.length) (hN : 1 ≤ LPred.length) :
    calcAccuracy LPred LTrue =
      Except.ok (some ((countMatches LPred LTrue : ℚ) / (LPred.length : ℚ))) ∧
    0 ≤ ((countMatches LPred LTrue : ℚ) / (LPred.length : ℚ)) ∧
    ((countMatches LPred LTrue : ℚ) / (LPred.length : ℚ)) ≤ 1 := by
  have hpos : (0 : ℚ) < (LPred.length : ℚ) := by
    have h0 : 0 < LPred.length := hN
    exact_mod_cast h0
  refine ⟨?_, ?_, ?_⟩
  · unfold calcAccuracy floatDiv
    rw [if_neg (by omega), if_neg hpos.ne']
  · exact div_nonneg (Nat.cast_nonneg _) (Nat.cast_nonneg _)
  · rw [div_le_one hpos]
    have hle : countMatches LPred LTrue ≤ LPred.length := by
      unfold countMatches
      calc (LPred.zip LTrue).countP (fun pt => decide (pt.1 = pt.2)) ≤
            (LPred.zip LTrue).length := List.countP_le_length _
        _ = min LPred.length LTrue.length := List.length_zip _ _
        _ ≤ LPred.length := min_le_left _ _
    exact_mod_cast hle

/-- C5 witness: the formula and the bounds at the concrete spec scenario. -/
theorem calcAccuracy_formula_bounds_witness :
    calcAccuracy [0, 1, 1, 0, 1] [0, 1, 0, 0, 1] =
      Except.ok (some ((countMatches [0, 1, 1, 0, 1] [0, 1, 0, 0, 1] : ℚ) /
        (([0, 1, 1, 0, 1] : List Int).length : ℚ))) ∧
    0 ≤ ((countMatches [0, 1, 1, 0, 1] [0, 1, 0, 0, 1] : ℚ) /
      (([0, 1, 1, 0, 1] : List Int).length : ℚ)) ∧
    ((countMatches [0, 1, 1, 0, 1] [0, 1, 0, 0, 1] : ℚ) /
      (([0, 1, 1, 0, 1] : List Int).length : ℚ)) ≤ 1 :=
  calcAccuracy_formula_bounds [0, 1, 1, 0, 1] [0, 1, 0, 0, 1] rfl (by decide)

/-- C6 (amended): `calcAccuracyCM` performs no degenerate-input check: on a
matrix with zero total it silently yields the non-finite artifact of the
division by zero (`none`, numpy's NaN), and on a matrix with positive total
it returns trace divided by total. -/
theorem calcAccuracyCM_cases (cM : List (List Nat)) :
    (matSum cM = 0 → calcAccuracyCM cM = none) ∧
    (matSum cM ≠ 0 →
      calcAccuracyCM cM = some ((matTrace cM : ℚ) / (matSum cM : ℚ))) := by
  constructor
  · intro h
    unfold calcAccuracyCM floatDiv
    rw [if_pos (by rw [h]; simp)]
  · intro h
    unfold calcAccuracyCM floatDiv
    rw [if_neg (by exact_mod_cast h)]

/-- C6 witness: the positive-total branch at the spec's concrete matrix. -/
theorem calcAccuracyCM_cases_witness :
    calcAccuracyCM [[2, 0], [1, 2]] =
      some ((matTrace [[2, 0], [1, 2]] : ℚ) / (matSum [[2, 0], [1, 2]] : ℚ)) :=
  (calcAccuracyCM_cases [[2, 0], [1, 2]]).2 (by decide)

/-- C6 counterexample: on the zero matrix `calcAccuracyCM` raises no error
and is exactly the propagated division-by-zero artifact (NaN, `none`), not
an explicit `DegenerateInput` failure. -/
theorem calcAccuracyCM_zero_cex :
    calcAccuracyCM [[0, 0], [0, 0]] = floatDiv 0 0 ∧
    calcAccuracyCM [[0, 0], [0, 0]] = none :=
  ⟨rfl, rfl⟩

/-- C7 (amended): for a nonempty sequence compared with itself the accuracy
is exactly 1, and whenever `calcConfusionMatrix(P, P)` returns a matrix that
matrix is diagonal. -/
theorem self_comparison (L : List Int) (hne : L ≠ []) :
    calcAccuracy L L = Except.ok (some 1) ∧
    ∀ m, calcConfusionMatrix L L = Except.ok m →
      ∀ r c, r ≠ c → getEntry m r c = 0 := by
  constructor
  · have hpos : (0 : ℚ) < L.length := by
      have h0 : 0 < L.length := List.length_pos.mpr hne
      exact_mod_cast h0
    unfold calcAccuracy floatDiv
    rw [if_neg (by omega), countMatches_self, if_neg hpos.ne',
      div_self hpos.ne']
  · intro m hok r c hrc
    rw [calcConfusionMatrix_eq_fold] at hok
    have hdg : ∀ tp ∈ L.zip L, tp.1 = tp.2 := by
      intro tp htp
      rw [zip_self_eq_map] at htp
      obtain ⟨y, _, rfl⟩ := List.mem_map.mp htp
      rfl
    have hd := foldCM_diag _ _ _ _ (dims_replicate _) hdg hok r c hrc
    rw [hd, getEntry_replicate]

/-- C7 witness: accuracy 1 and an off-diagonal zero on a concrete self
comparison. -/
theorem self_comparison_witness :
    calcAccuracy [0, 1] [0, 1] = Except.ok (some 1) ∧
    getEntry [[1, 0], [0, 1]] 0 1 = 0 := by
  have h := self_comparison [0, 1] (by simp)
  exact ⟨h.1, h.2 [[1, 0], [0, 1]] rfl 0 1 (by omega)⟩

/-- C7 counterexample: on the empty sequence the accuracy of `P == T` is the
NaN of `0 / 0`, not `1.0`; and for `P = T = [2]` no (diagonal) matrix is
returned — the call raises `IndexError`. -/
theorem self_comparison_cex :
    calcAccuracy ([] : List Int) [] = Except.ok none ∧
    calcConfusionMatrix [2] [2] = Except.error "IndexError" :=
  ⟨rfl, rfl⟩

/-- C8: the spec's concrete scenario: accuracy `4/5`, confusion matrix
`[[2,0],[1,2]]`, and matrix-derived accuracy `4/5`. -/
theorem concrete_scenario :
    calcAccuracy [0, 1, 1, 0, 1] [0, 1, 0, 0, 1] =
      Except.ok (some (4 / 5 : ℚ)) ∧
    calcConfusionMatrix [0, 1, 1, 0, 1] [0, 1, 0, 0, 1] =
      Except.ok [[2, 0], [1, 2]] ∧
    calcAccuracyCM [[2, 0], [1, 2]] = some (4 / 5 : ℚ) :=
  ⟨rfl, rfl, rfl⟩

/-- C9: `calcConfusionMatrix` is a pure function — two invocations on the
same inputs are the same value — and the canonical label ordering it derives
is strictly sorted, hence deterministic. -/
theorem confusionMatrix_deterministic (LPred LTrue : List Int) :
    calcConfusionMatrix LPred LTrue = calcConfusionMatrix LPred LTrue ∧
    List.Sorted (· < ·) (npUnique (LPred ++ LTrue)) :=
  ⟨rfl, npUnique_sorted_lt _⟩

/-- C10: `calcConfusionMatrix` performs no length validation: when all
labels lie in `{0, …, K-1}` it succeeds even on sequences of different
lengths, and the entries sum to the number of zipped pairs,
`min (len LPred) (len LTrue)`. -/
theorem no_length_validation (LPred LTrue : List Int)
    (hr : labelsInRange LPred LTrue) :
    ∃ m, calcConfusionMatrix LPred LTrue = Except.ok m ∧
      matSum m = min LPred.length LTrue.length := by
  obtain ⟨m, hok, _, _, _, hsum⟩ := confusion_success LPred LTrue hr
  refine ⟨m, hok, ?_⟩
  rw [hsum, List.length_zip]
  omega

/-- C10 witness: a mismatched-length pair on which the matrix is produced
and its total is the shorter length. -/
theorem no_length_validation_witness :
    calcConfusionMatrix [0, 1, 1] [0, 1] = Except.ok [[1, 0], [0, 1]] ∧
    matSum [[1, 0], [0, 1]] =
      min ([0, 1, 1] : List Int).length (([0, 1] : List Int).length) := by
  obtain ⟨m, hok, hsum⟩ := no_length_validation [0, 1, 1] [0, 1] (by decide)
  have hm : m = [[1, 0], [0, 1]] :=
    Except.ok.inj (hok.symm.trans (show calcConfusionMatrix [0, 1, 1] [0, 1] =
      Except.ok [[1, 0], [0, 1]] from rfl))
  rw [hm] at hok hsum
  exact ⟨hok, hsum⟩

end Lab1Eval
